import Mathlib

/-!
# Bright Tech front-end script (`src/js/main.js`)

A shallow embedding of three units of `main.js`:

* the testimonial slider (`initTestimonialSlider`, lines 251-298): the closure
  variable `currentSlide`, the two node lists `slides` and `dots`, and the
  functions `showSlide`, `nextSlide`, `prevSlide` and the dot click handler;
* the language switcher (`switchLanguage`, lines 126-147);
* the form validation (`validateForm`, lines 152-175).

JavaScript strings are lists of characters, DOM elements are records of the
properties the script reads or writes, and a JavaScript number that holds an
index is an integer or `NaN`.
-/

namespace BrightTech

/-! ## JavaScript numbers used as indices -/

/-- The values the variable `currentSlide` can hold: an integer or `NaN`
(the result of `x % 0`). -/
inductive JSNum where
  | int (i : Int)
  | nan
  deriving DecidableEq, Repr

namespace JSNum

/-- JavaScript `a + b` on numbers. -/
def add : JSNum → JSNum → JSNum
  | int a, int b => int (a + b)
  | _, _ => nan

/-- JavaScript `a - b` on numbers. -/
def sub : JSNum → JSNum → JSNum
  | int a, int b => int (a - b)
  | _, _ => nan

/-- JavaScript `a % b` on numbers: the remainder takes the sign of the
dividend, and a zero divisor gives `NaN`. -/
def mod : JSNum → JSNum → JSNum
  | int a, int b => if b = 0 then nan else int (Int.tmod a b)
  | _, _ => nan

/-- JavaScript `i === index` for the array position `i` handed to a `forEach`
callback: `NaN` is equal to nothing. -/
def strictEqIdx (i : Nat) : JSNum → Bool
  | int k => decide ((i : Int) = k)
  | nan => false

end JSNum

/-! ## DOM elements -/

/-- The list of class tokens of an element (`element.classList`). -/
abbrev ClassList := List String

/-- The call `classList.add(token)`. -/
def ClassList.add (cl : ClassList) (token : String) : ClassList :=
  if token ∈ cl then cl else cl ++ [token]

/-- The call `classList.remove(token)`. -/
def ClassList.remove (cl : ClassList) (token : String) : ClassList :=
  cl.filter (fun t => t != token)

/-- The call `classList.toggle(token, force)`: with `force` true the token is
added, with `force` false it is removed. -/
def ClassList.toggle (cl : ClassList) (token : String) (force : Bool) : ClassList :=
  if force then ClassList.add cl token else ClassList.remove cl token

/-- A testimonial card: the two inline style properties `showSlide` writes. -/
structure Slide where
  display : String
  opacity : String
  deriving DecidableEq, Repr

/-- A slider dot: its class list. -/
structure Dot where
  classList : ClassList
  deriving DecidableEq, Repr

/-- The call `xs.forEach((x, i) => ...)` where the callback updates the element
`x` from its position `i`; positions are counted from `start`. -/
def forEachIdxFrom {α : Type} (f : α → Nat → α) : Nat → List α → List α
  | _, [] => []
  | start, x :: xs => f x start :: forEachIdxFrom f (start + 1) xs

/-- The call `xs.forEach((x, i) => ...)`, positions counted from `0`. -/
def forEachIdx {α : Type} (f : α → Nat → α) (xs : List α) : List α :=
  forEachIdxFrom f 0 xs

/-! ## The testimonial slider -/

/-- The state captured by the closures of `initTestimonialSlider`. -/
structure Slider where
  slides : List Slide
  dots : List Dot
  currentSlide : JSNum
  deriving DecidableEq, Repr

/-- The function `showSlide(index)` (lines 262-271). -/
def showSlide (index : JSNum) (s : Slider) : Slider :=
  { s with
    slides := forEachIdx (fun _ i =>
      { display := if JSNum.strictEqIdx i index then "block" else "none"
        opacity := if JSNum.strictEqIdx i index then "1" else "0" }) s.slides
    dots := forEachIdx (fun dot i =>
      { classList := ClassList.toggle dot.classList "active" (JSNum.strictEqIdx i index) })
      s.dots }

/-- The function `nextSlide()` (lines 273-276). -/
def nextSlide (s : Slider) : Slider :=
  let cur := JSNum.mod (JSNum.add s.currentSlide (JSNum.int 1)) (JSNum.int s.slides.length)
  showSlide cur { s with currentSlide := cur }

/-- The function `prevSlide()` (lines 278-281). -/
def prevSlide (s : Slider) : Slider :=
  let cur := JSNum.mod
    (JSNum.add (JSNum.sub s.currentSlide (JSNum.int 1)) (JSNum.int s.slides.length))
    (JSNum.int s.slides.length)
  showSlide cur { s with currentSlide := cur }

/-- The click handler of the dot at position `i` (lines 287-290). -/
def dotClick (i : Nat) (s : Slider) : Slider :=
  showSlide (JSNum.int i) { s with currentSlide := JSNum.int i }

/-- The body of `initTestimonialSlider` once the node lists are found:
`currentSlide = 0` (line 260) and `showSlide(0)` (line 297). -/
def initTestimonialSlider (slides : List Slide) (dots : List Dot) : Slider :=
  showSlide (JSNum.int 0) { slides := slides, dots := dots, currentSlide := JSNum.int 0 }

/-- The operations that can run after initialisation: a click on the next
button or a tick of the `setInterval` timer (both call `nextSlide`), a click on
the previous button, and a click on the dot at position `i`. -/
inductive Op where
  | next
  | previous
  | jump (i : Nat)
  deriving DecidableEq, Repr

/-- One operation on the slider. A click handler is registered for each element
of `dots` and for nothing else (`dots.forEach`, line 286), so a jump to a
position that has no dot is no event and leaves the state as it is. -/
def Op.apply (s : Slider) : Op → Slider
  | Op.next => nextSlide s
  | Op.previous => prevSlide s
  | Op.jump i => if i < s.dots.length then dotClick i s else s

/-- A finite sequence of operations, run from left to right. -/
def runOps (ops : List Op) (s : Slider) : Slider :=
  ops.foldl Op.apply s

/-- An operation is a call of `next()` or `previous()`. -/
def Op.isStep : Op → Bool
  | Op.next => true
  | Op.previous => true
  | Op.jump _ => false

/-- The slide is shown. -/
def Slide.shown (sl : Slide) : Bool := sl.display == "block"

/-- The dot carries the class `active`. -/
def Dot.active (d : Dot) : Bool := d.classList.contains "active"

/-! ## JavaScript strings -/

/-- A JavaScript string, as the list of its characters. -/
abbrev JSString := List Char

/-- The call `s.includes(pat)`. -/
def includes : JSString → JSString → Bool
  | [], pat => pat.isPrefixOf []
  | c :: s, pat => pat.isPrefixOf (c :: s) || includes s pat

/-- The call `s.replace(pat, rep)` for a string pattern `pat` and a replacement
`rep` without `$`: the first occurrence of `pat` is replaced, and a string
without `pat` is returned as it is. -/
def replaceFirst : JSString → JSString → JSString → JSString
  | [], pat, rep => if pat.isPrefixOf [] then rep else []
  | c :: s, pat, rep =>
    if pat.isPrefixOf (c :: s) then rep ++ (c :: s).drop pat.length
    else c :: replaceFirst s pat rep

/-- The call `s.split(sep)` for a separator of one character. -/
def splitChar (sep : Char) : JSString → List JSString
  | [] => [[]]
  | c :: s =>
    if c = sep then [] :: splitChar sep s
    else
      match splitChar sep s with
      | [] => [[c]]
      | seg :: rest => (c :: seg) :: rest

/-- The call `parts.pop()` on an array of strings, `undefined` (falsy, as the
empty string is) on the empty array. -/
def pop (parts : List JSString) : JSString :=
  parts.getLastD []

/-- White space and line terminators of JavaScript: what `\s` matches in a
regular expression and what `trim()` removes. -/
def isJsSpace (c : Char) : Bool :=
  c.toNat ∈ [9, 10, 11, 12, 13, 32, 160, 5760, 8232, 8233, 8239, 8287, 12288, 65279]
    || (8192 ≤ c.toNat && c.toNat ≤ 8202)

/-- The call `s.trim()`. -/
def jsTrim (s : JSString) : JSString :=
  ((s.dropWhile isJsSpace).reverse.dropWhile isJsSpace).reverse

/-! ## The language switcher -/

/-- The expression `currentPath.split('/').pop() || 'index.html'` (line 128). -/
def fileNameOf (currentPath : JSString) : JSString :=
  let last := pop (splitChar '/' currentPath)
  if last = [] then "index.html".toList else last

/-- The function `switchLanguage(lang)` (lines 126-147) on the page whose
`window.location.pathname` is `currentPath`: `some newPath` is the assignment
`window.location.href = newPath`, `none` is a return without navigation. -/
def switchLanguage (lang : String) (currentPath : JSString) : Option JSString :=
  let fileName := fileNameOf currentPath
  if lang = "ar" then
    if includes fileName "-ar.html".toList then none
    else some (replaceFirst fileName ".html".toList "-ar.html".toList)
  else
    if !includes fileName "-ar.html".toList then none
    else some (replaceFirst fileName "-ar.html".toList ".html".toList)

/-! ## Regular expressions -/

/-- The regular expressions needed for the pattern of `validateForm`, with
character classes as predicates. -/
inductive Regex where
  | empty
  | eps
  | cls (p : Char → Bool)
  | seq (a b : Regex)
  | alt (a b : Regex)
  | star (a : Regex)

namespace Regex

/-- The pattern `a+`. -/
def plus (a : Regex) : Regex := seq a (star a)

/-- The pattern of one literal character. -/
def chr (c : Char) : Regex := cls (fun x => x == c)

/-- The expression matches the empty string. -/
def nullable : Regex → Bool
  | empty => false
  | eps => true
  | cls _ => false
  | seq a b => nullable a && nullable b
  | alt a b => nullable a || nullable b
  | star _ => true

/-- The derivative of an expression by one character. -/
def deriv (c : Char) : Regex → Regex
  | empty => empty
  | eps => empty
  | cls p => if p c then eps else empty
  | seq a b => if nullable a then alt (seq (deriv c a) b) (deriv c b) else seq (deriv c a) b
  | alt a b => alt (deriv c a) (deriv c b)
  | star a => seq (deriv c a) (star a)

/-- The call `/^r$/.test(s)`: the whole string matches `r`. -/
def test (r : Regex) : JSString → Bool
  | [] => nullable r
  | c :: s => test (deriv c r) s

/-- The strings an expression matches. -/
inductive Matches : Regex → JSString → Prop where
  | eps : Matches eps []
  | cls (p : Char → Bool) (c : Char) : p c = true → Matches (cls p) [c]
  | seq (a b : Regex) (u v : JSString) :
      Matches a u → Matches b v → Matches (seq a b) (u ++ v)
  | altLeft (a b : Regex) (u : JSString) : Matches a u → Matches (alt a b) u
  | altRight (a b : Regex) (u : JSString) : Matches b u → Matches (alt a b) u
  | starNil (a : Regex) : Matches (star a) []
  | starCons (a : Regex) (u v : JSString) :
      Matches a u → Matches (star a) v → Matches (star a) (u ++ v)

end Regex

/-! ## The form validation -/

/-- The character class `[^\s@]`. -/
def notSpaceAt (c : Char) : Bool := !(isJsSpace c || c == '@')

/-- The pattern `/^[^\s@]+@[^\s@]+\.[^\s@]+$/` (line 166). -/
def emailRegex : Regex :=
  Regex.seq (Regex.plus (Regex.cls notSpaceAt))
    (Regex.seq (Regex.chr '@')
      (Regex.seq (Regex.plus (Regex.cls notSpaceAt))
        (Regex.seq (Regex.chr '.') (Regex.plus (Regex.cls notSpaceAt)))))

/-- A form control: whether it has the attribute `required`, its `type`, its
`value` and its class list. -/
structure Input where
  required : Bool
  type : String
  value : JSString
  classList : ClassList
  deriving DecidableEq, Repr

/-- The body of the `forEach` callback of `validateForm` (lines 157-171) on one
required input: the new value of `isValid` and the input after the call. -/
def validateInput (isValid : Bool) (input : Input) : Bool × Input :=
  let r1 : Bool × Input :=
    if jsTrim input.value = [] then
      (false, { input with classList := ClassList.add input.classList "error" })
    else
      (isValid, { input with classList := ClassList.remove input.classList "error" })
  if input.type = "email" ∧ input.value ≠ [] then
    if !Regex.test emailRegex input.value then
      (false, { r1.2 with classList := ClassList.add r1.2.classList "error" })
    else r1
  else r1

/-- The loop of `validateForm` over the controls of the form, in document
order, started with the value `isValid`: `querySelectorAll('[required]')`
selects the required controls, and the others are left as they are. -/
def validateFrom (isValid : Bool) : List Input → Bool × List Input
  | [] => (isValid, [])
  | input :: rest =>
    if input.required then
      let r := validateInput isValid input
      let t := validateFrom r.1 rest
      (t.1, r.2 :: t.2)
    else
      let t := validateFrom isValid rest
      (t.1, input :: t.2)

/-- The function `validateForm(form)` (lines 152-175): the returned `isValid`
and the controls of the form after the call. -/
def validateForm (form : List Input) : Bool × List Input :=
  validateFrom true form

/-- The shape `local@domain.tld`: three non-empty parts without white space
and without `@`. -/
def EmailShape (s : JSString) : Prop :=
  ∃ l d t : JSString, l ≠ [] ∧ d ≠ [] ∧ t ≠ [] ∧
    (∀ c ∈ l, notSpaceAt c = true) ∧ (∀ c ∈ d, notSpaceAt c = true) ∧
    (∀ c ∈ t, notSpaceAt c = true) ∧ s = l ++ '@' :: (d ++ '.' :: t)

/-- The input carries the class `error`. -/
def Input.hasError (input : Input) : Bool := input.classList.contains "error"

/-- The state shows position `c`: the current index is `c`, the slide at `c` and
no other is shown, the dot at `c` and no other is active. -/
def Synced (c : Nat) (s : Slider) : Prop :=
  s.currentSlide = JSNum.int c ∧
    (∀ j (h : j < s.slides.length), s.slides[j].shown = true ↔ j = c) ∧
    (∀ j (h : j < s.dots.length), s.dots[j].active = true ↔ j = c)

/-- The input fails one of the two checks of `validateForm`: its value is
empty after trimming, or it is of type `email` with a non-empty value that has
not the shape `local@domain.tld`. -/
def Input.Violates (input : Input) : Prop :=
  jsTrim input.value = [] ∨
    (input.type = "email" ∧ input.value ≠ [] ∧ ¬ EmailShape input.value)

/-- The control `out` is what `validateForm` makes of the control `input`: a
control that is not required is left as it is, and a required one keeps its
attributes and carries the class `error` exactly when it fails a check. -/
def ValidatedAs (input out : Input) : Prop :=
  out.required = input.required ∧ out.type = input.type ∧ out.value = input.value ∧
    (input.required = false → out = input) ∧
    (input.required = true → (out.hasError = true ↔ input.Violates))


/-! ## Lemmas on the building blocks -/

theorem length_forEachIdxFrom {α : Type} (f : α → Nat → α) (xs : List α) (start : Nat) :
    (forEachIdxFrom f start xs).length = xs.length := by
  induction xs generalizing start with
  | nil => rfl
  | cons x xs ih => simp [forEachIdxFrom, ih]

theorem getElem_forEachIdxFrom {α : Type} (f : α → Nat → α) (xs : List α) (start j : Nat)
    (h : j < (forEachIdxFrom f start xs).length) (hx : j < xs.length) :
    (forEachIdxFrom f start xs)[j] = f xs[j] (start + j) := by
  induction xs generalizing start j with
  | nil => simp [forEachIdxFrom] at h
  | cons x xs ih =>
    cases j with
    | zero => simp [forEachIdxFrom]
    | succ j =>
      simp only [forEachIdxFrom, List.getElem_cons_succ]
      rw [ih (start + 1) j (by simpa [forEachIdxFrom] using h) (by simpa using hx)]
      congr 1
      omega

theorem length_forEachIdx {α : Type} (f : α → Nat → α) (xs : List α) :
    (forEachIdx f xs).length = xs.length :=
  length_forEachIdxFrom f xs 0

theorem getElem_forEachIdx {α : Type} (f : α → Nat → α) (xs : List α) (j : Nat)
    (h : j < (forEachIdx f xs).length) (hx : j < xs.length) :
    (forEachIdx f xs)[j] = f xs[j] j := by
  have := getElem_forEachIdxFrom f xs 0 j h hx
  simpa [forEachIdx] using this

theorem contains_toggle (cl : ClassList) (token : String) (force : Bool) :
    (ClassList.toggle cl token force).contains token = force := by
  cases force with
  | true =>
    by_cases h : token ∈ cl <;> simp [ClassList.toggle, ClassList.add, h]
  | false =>
    simp [ClassList.toggle, ClassList.remove]

theorem strictEqIdx_int (i k : Nat) : JSNum.strictEqIdx i (JSNum.int k) = decide (i = k) := by
  simp [JSNum.strictEqIdx]

theorem next_index (c n : Nat) (hn : 1 ≤ n) :
    JSNum.mod (JSNum.add (JSNum.int c) (JSNum.int 1)) (JSNum.int n)
      = JSNum.int (((c + 1) % n : Nat) : Int) := by
  have h0 : (n : Int) ≠ 0 := by omega
  simp only [JSNum.add, JSNum.mod, if_neg h0]
  rfl

theorem prev_index (c n : Nat) (hn : 1 ≤ n) :
    JSNum.mod (JSNum.add (JSNum.sub (JSNum.int c) (JSNum.int 1)) (JSNum.int n)) (JSNum.int n)
      = JSNum.int (((c + n - 1) % n : Nat) : Int) := by
  have h0 : (n : Int) ≠ 0 := by omega
  simp only [JSNum.add, JSNum.sub, JSNum.mod, if_neg h0]
  rw [show ((c : Int) - 1 + n) = ((c + n - 1 : Nat) : Int) by omega]
  rfl

/-! ## Lemmas on `showSlide` -/

@[simp] theorem showSlide_currentSlide (index : JSNum) (s : Slider) :
    (showSlide index s).currentSlide = s.currentSlide := rfl

@[simp] theorem showSlide_slides_length (index : JSNum) (s : Slider) :
    (showSlide index s).slides.length = s.slides.length := by
  simp [showSlide, length_forEachIdx]

@[simp] theorem showSlide_dots_length (index : JSNum) (s : Slider) :
    (showSlide index s).dots.length = s.dots.length := by
  simp [showSlide, length_forEachIdx]

theorem showSlide_slide (k : Nat) (s : Slider) (j : Nat)
    (h : j < (showSlide (JSNum.int k) s).slides.length) :
    (showSlide (JSNum.int k) s).slides[j] =
      { display := if j = k then "block" else "none", opacity := if j = k then "1" else "0" } := by
  have hx : j < s.slides.length := by simpa using h
  simp only [showSlide]
  rw [getElem_forEachIdx _ _ _ _ hx]
  simp [strictEqIdx_int]

theorem showSlide_dot_active (k : Nat) (s : Slider) (j : Nat)
    (h : j < (showSlide (JSNum.int k) s).dots.length) :
    (showSlide (JSNum.int k) s).dots[j].active = decide (j = k) := by
  have hx : j < s.dots.length := by simpa using h
  simp only [showSlide]
  rw [getElem_forEachIdx _ _ _ _ hx]
  simp only [Dot.active, contains_toggle, strictEqIdx_int]

/-- After `showSlide(k)` with `currentSlide = k`, slide `k` alone is shown and
dot `k` alone is active. -/
theorem synced_showSlide (k : Nat) (s : Slider) :
    Synced k (showSlide (JSNum.int k) { s with currentSlide := JSNum.int k }) := by
  refine ⟨rfl, ?_, ?_⟩
  · intro j h
    rw [showSlide_slide]
    by_cases hj : j = k <;> simp [Slide.shown, hj]
  · intro j h
    rw [showSlide_dot_active]
    simp

theorem nextSlide_eq (c : Nat) (s : Slider) (hn : 1 ≤ s.slides.length)
    (hc : s.currentSlide = JSNum.int c) :
    nextSlide s = showSlide (JSNum.int (((c + 1) % s.slides.length : Nat) : Int))
      { s with currentSlide := JSNum.int (((c + 1) % s.slides.length : Nat) : Int) } := by
  simp only [nextSlide, hc, next_index c _ hn]

theorem prevSlide_eq (c : Nat) (s : Slider) (hn : 1 ≤ s.slides.length)
    (hc : s.currentSlide = JSNum.int c) :
    prevSlide s = showSlide (JSNum.int (((c + s.slides.length - 1) % s.slides.length : Nat) : Int))
      { s with currentSlide :=
          JSNum.int (((c + s.slides.length - 1) % s.slides.length : Nat) : Int) } := by
  simp only [prevSlide, hc, prev_index c _ hn]

/-- Every operation keeps the number of slides and of dots. -/
theorem apply_lengths (s : Slider) (op : Op) :
    (Op.apply s op).slides.length = s.slides.length ∧
      (Op.apply s op).dots.length = s.dots.length := by
  cases op with
  | next => simp [Op.apply, nextSlide]
  | previous => simp [Op.apply, prevSlide]
  | jump i =>
    simp only [Op.apply]
    split <;> simp [dotClick]

theorem runOps_lengths (ops : List Op) (s : Slider) :
    (runOps ops s).slides.length = s.slides.length ∧
      (runOps ops s).dots.length = s.dots.length := by
  induction ops generalizing s with
  | nil => exact ⟨rfl, rfl⟩
  | cons op ops ih =>
    have h1 := apply_lengths s op
    have h2 := ih (Op.apply s op)
    simp only [runOps, List.foldl_cons] at h2 ⊢
    exact ⟨h2.1.trans h1.1, h2.2.trans h1.2⟩

/-- With at least one slide and no more dots than slides, every operation takes
a state whose index is in range and whose display follows the index to such a
state. -/
theorem inRange_apply (s : Slider) (op : Op) (hn : 1 ≤ s.slides.length)
    (hd : s.dots.length ≤ s.slides.length)
    (h : ∃ c, c < s.slides.length ∧ Synced c s) :
    ∃ c, c < (Op.apply s op).slides.length ∧ Synced c (Op.apply s op) := by
  obtain ⟨c, hc, hcur, hrest⟩ := h
  have hlen := (apply_lengths s op).1
  rw [hlen]
  cases op with
  | next =>
    refine ⟨(c + 1) % s.slides.length, Nat.mod_lt _ hn, ?_⟩
    simp only [Op.apply, nextSlide_eq c s hn hcur]
    exact synced_showSlide _ _
  | previous =>
    refine ⟨(c + s.slides.length - 1) % s.slides.length, Nat.mod_lt _ hn, ?_⟩
    simp only [Op.apply, prevSlide_eq c s hn hcur]
    exact synced_showSlide _ _
  | jump i =>
    simp only [Op.apply]
    split
    · next hi => exact ⟨i, by omega, synced_showSlide _ _⟩
    · exact ⟨c, hc, hcur, hrest⟩


/-! ## The slider: invariants of the reachable states -/

theorem runOps_inRange (ops : List Op) (s : Slider) (hn : 1 ≤ s.slides.length)
    (hd : s.dots.length ≤ s.slides.length)
    (h : ∃ c, c < s.slides.length ∧ Synced c s) :
    ∃ c, c < (runOps ops s).slides.length ∧ Synced c (runOps ops s) := by
  induction ops generalizing s with
  | nil => exact h
  | cons op ops ih =>
    have hl := apply_lengths s op
    have := ih (Op.apply s op) (by omega) (by omega) (inRange_apply s op hn hd h)
    simpa only [runOps, List.foldl_cons] using this

theorem init_inRange (slides : List Slide) (dots : List Dot) (hn : 1 ≤ slides.length) :
    ∃ c, c < (initTestimonialSlider slides dots).slides.length ∧
      Synced c (initTestimonialSlider slides dots) := by
  refine ⟨0, ?_, ?_⟩
  · simpa [initTestimonialSlider] using hn
  · exact synced_showSlide 0 { slides := slides, dots := dots, currentSlide := JSNum.int 0 }

theorem reachable_inRange (slides : List Slide) (dots : List Dot) (ops : List Op)
    (hn : 1 ≤ slides.length) (hd : dots.length ≤ slides.length) :
    ∃ c, c < slides.length ∧ Synced c (runOps ops (initTestimonialSlider slides dots)) := by
  have hl : (initTestimonialSlider slides dots).slides.length = slides.length := by
    simp [initTestimonialSlider]
  have hl2 : (initTestimonialSlider slides dots).dots.length = dots.length := by
    simp [initTestimonialSlider]
  obtain ⟨c, hc, hs⟩ := runOps_inRange ops (initTestimonialSlider slides dots)
    (by omega) (by omega) (init_inRange slides dots hn)
  rw [(runOps_lengths ops _).1, hl] at hc
  exact ⟨c, hc, hs⟩

theorem iterate_nextSlide (s : Slider) (hn : 1 ≤ s.slides.length)
    (h0 : s.currentSlide = JSNum.int 0) (k : Nat) :
    (nextSlide^[k] s).slides.length = s.slides.length ∧
      (nextSlide^[k] s).currentSlide = JSNum.int ((k % s.slides.length : Nat) : Int) := by
  induction k with
  | zero => simpa using h0
  | succ k ih =>
    rw [Function.iterate_succ_apply']
    obtain ⟨hl, hc⟩ := ih
    rw [nextSlide_eq _ _ (by omega) hc]
    refine ⟨by simp [hl], ?_⟩
    simp only [showSlide_currentSlide, hl, Nat.succ_eq_add_one, Nat.mod_add_mod]

/-! ## The claims on the slider -/

/-- C1: with `N ≥ 1` slides and `N` dots, after initialisation and any finite
sequence of `next()` and `previous()` calls the current index is a position
`c < N`, the slide at `c` and no other is shown, and the dot at `c` and no other
is active. -/
theorem slider_one_active_after_steps (slides : List Slide) (dots : List Dot) (ops : List Op)
    (hN : 1 ≤ slides.length) (hD : dots.length = slides.length)
    (_hops : ∀ op ∈ ops, Op.isStep op = true) :
    ∃ c : Nat, c < slides.length ∧
      (runOps ops (initTestimonialSlider slides dots)).slides.length = slides.length ∧
      (runOps ops (initTestimonialSlider slides dots)).dots.length = slides.length ∧
      (runOps ops (initTestimonialSlider slides dots)).currentSlide = JSNum.int c ∧
      (∀ j (h : j < (runOps ops (initTestimonialSlider slides dots)).slides.length),
        (runOps ops (initTestimonialSlider slides dots)).slides[j].shown = true ↔ j = c) ∧
      (∀ j (h : j < (runOps ops (initTestimonialSlider slides dots)).dots.length),
        (runOps ops (initTestimonialSlider slides dots)).dots[j].active = true ↔ j = c) := by
  obtain ⟨c, hc, hcur, hs, hd⟩ := reachable_inRange slides dots ops hN (by omega)
  have hl := runOps_lengths ops (initTestimonialSlider slides dots)
  refine ⟨c, hc, ?_, ?_, hcur, hs, hd⟩
  · rw [hl.1]; simp [initTestimonialSlider]
  · rw [hl.2]; simp [initTestimonialSlider, hD]

theorem slider_one_active_after_steps_witness :
    ∃ c : Nat, c < 2 ∧
      (runOps [Op.next, Op.previous, Op.previous]
        (initTestimonialSlider [⟨"", ""⟩, ⟨"none", "0"⟩] [⟨["active"]⟩, ⟨["active"]⟩])).currentSlide
        = JSNum.int c :=
  let ⟨c, hc, _, _, hcur, _⟩ := slider_one_active_after_steps
    [⟨"", ""⟩, ⟨"none", "0"⟩] [⟨["active"]⟩, ⟨["active"]⟩] [Op.next, Op.previous, Op.previous]
    (by decide) (by decide) (by decide)
  ⟨c, hc, hcur⟩

/-- C2: with `N ≥ 1` slides and the current index `0`, the `k`-th call of
`next()` in a row moves the index from `c` to `(c + 1) mod N` and shows that
slide, `N` calls bring the index back to `0`, and for `N = 3` the indices after
the calls are `1`, `2`, `0`. -/
theorem nextSlide_cycle (s : Slider) (hN : 1 ≤ s.slides.length)
    (h0 : s.currentSlide = JSNum.int 0) :
    (∀ k : Nat, ∃ c : Nat, c < s.slides.length ∧
      (nextSlide^[k] s).currentSlide = JSNum.int c ∧
      (nextSlide^[k + 1] s).currentSlide = JSNum.int (((c + 1) % s.slides.length : Nat) : Int) ∧
      Synced ((c + 1) % s.slides.length) (nextSlide^[k + 1] s)) ∧
    (nextSlide^[s.slides.length] s).currentSlide = JSNum.int 0 ∧
    (s.slides.length = 3 →
      (nextSlide s).currentSlide = JSNum.int 1 ∧
      (nextSlide (nextSlide s)).currentSlide = JSNum.int 2 ∧
      (nextSlide (nextSlide (nextSlide s))).currentSlide = JSNum.int 0) := by
  refine ⟨?_, ?_, ?_⟩
  · intro k
    obtain ⟨hl, hc⟩ := iterate_nextSlide s hN h0 k
    refine ⟨k % s.slides.length, Nat.mod_lt _ hN, hc, ?_, ?_⟩
    · rw [Function.iterate_succ_apply', nextSlide_eq _ _ (by omega) hc]
      simp [hl]
    · rw [Function.iterate_succ_apply', nextSlide_eq _ _ (by omega) hc, hl]
      exact synced_showSlide _ _
  · have := (iterate_nextSlide s hN h0 s.slides.length).2
    simpa using this
  · intro h3
    have h1 := (iterate_nextSlide s hN h0 1).2
    have h2 := (iterate_nextSlide s hN h0 2).2
    have h3' := (iterate_nextSlide s hN h0 3).2
    rw [h3] at h1 h2 h3'
    exact ⟨h1, h2, h3'⟩

theorem nextSlide_cycle_witness :
    (nextSlide^[3] (initTestimonialSlider [⟨"", ""⟩, ⟨"", ""⟩, ⟨"", ""⟩] [])).currentSlide
      = JSNum.int 0 :=
  (nextSlide_cycle (initTestimonialSlider [⟨"", ""⟩, ⟨"", ""⟩, ⟨"", ""⟩] [])
    (by decide) (by decide)).2.1

/-- C3: with `N ≥ 1` slides and a current index `c ≥ 0`, `previous()` sets the
index to `(c - 1 + N) mod N`, which is at least `0` and below `N`, and shows
that slide; from the index `0` the new index is `N - 1`. -/
theorem prevSlide_index (s : Slider) (c : Nat) (hN : 1 ≤ s.slides.length)
    (hc : s.currentSlide = JSNum.int c) :
    ∃ r : Nat, (prevSlide s).currentSlide = JSNum.int r ∧
      (r : Int) = ((c : Int) - 1 + s.slides.length) % (s.slides.length : Int) ∧
      r < s.slides.length ∧ Synced r (prevSlide s) ∧
      (c = 0 → (r : Int) = (s.slides.length : Int) - 1) := by
  refine ⟨(c + s.slides.length - 1) % s.slides.length, ?_, ?_, Nat.mod_lt _ hN, ?_, ?_⟩
  · rw [prevSlide_eq c s hN hc]; rfl
  · rw [show ((c : Int) - 1 + s.slides.length) = ((c + s.slides.length - 1 : Nat) : Int) by omega]
    norm_cast
  · rw [prevSlide_eq c s hN hc]
    exact synced_showSlide _ _
  · intro hc0
    subst hc0
    rw [Nat.zero_add, Nat.mod_eq_of_lt (by omega)]
    omega

theorem prevSlide_index_witness :
    ∃ r : Nat, (prevSlide (initTestimonialSlider [⟨"", ""⟩, ⟨"", ""⟩, ⟨"", ""⟩] [])).currentSlide
        = JSNum.int r ∧ (r : Int) = 3 - 1 :=
  let ⟨r, h1, _, _, _, h5⟩ := prevSlide_index
    (initTestimonialSlider [⟨"", ""⟩, ⟨"", ""⟩, ⟨"", ""⟩] []) 0 (by decide) (by decide)
  ⟨r, h1, h5 rfl⟩


/-- C4: with `N ≥ 1` slides and a position `k < N` that has a dot, a click on
the dot at `k` sets the current index to `k` and shows slide `k` (and dot `k`)
alone, whatever the index was before. -/
theorem jump_sets_index (s : Slider) (k : Nat) (_hk : k < s.slides.length)
    (hd : k < s.dots.length) :
    Op.apply s (Op.jump k) = dotClick k s ∧
      (Op.apply s (Op.jump k)).currentSlide = JSNum.int k ∧
      (Op.apply s (Op.jump k)).slides.length = s.slides.length ∧
      (∀ j (h : j < (Op.apply s (Op.jump k)).slides.length),
        (Op.apply s (Op.jump k)).slides[j].shown = true ↔ j = k) ∧
      (∀ j (h : j < (Op.apply s (Op.jump k)).dots.length),
        (Op.apply s (Op.jump k)).dots[j].active = true ↔ j = k) := by
  have hl := (apply_lengths s (Op.jump k)).1
  have he : Op.apply s (Op.jump k) = dotClick k s := by simp [Op.apply, hd]
  have hs : Synced k (Op.apply s (Op.jump k)) := by
    rw [he]; exact synced_showSlide k s
  exact ⟨he, hs.1, hl, hs.2.1, hs.2.2⟩

theorem jump_sets_index_witness :
    (Op.apply { slides := [⟨"block", "1"⟩, ⟨"none", "0"⟩], dots := [⟨["active"]⟩, ⟨[]⟩],
                currentSlide := JSNum.nan } (Op.jump 1)).currentSlide = JSNum.int 1 :=
  (jump_sets_index { slides := [⟨"block", "1"⟩, ⟨"none", "0"⟩], dots := [⟨["active"]⟩, ⟨[]⟩],
                     currentSlide := JSNum.nan } 1 (by decide) (by decide)).2.1

/-- C5: for an index below the number of slides, `showSlide(index)` keeps the
slides and dots in place, leaves the slide at `index` with display `block` and
opacity `1` and every other slide with display `none` and opacity `0`, and
leaves the dot at `index` with the class `active` and every other dot without
it, whatever the slides and dots were before. -/
theorem showSlide_effect (s : Slider) (index : Nat) (_hi : index < s.slides.length) :
    (showSlide (JSNum.int index) s).slides.length = s.slides.length ∧
      (showSlide (JSNum.int index) s).dots.length = s.dots.length ∧
      (∀ j (h : j < (showSlide (JSNum.int index) s).slides.length),
        (showSlide (JSNum.int index) s).slides[j] =
          if j = index then { display := "block", opacity := "1" }
          else { display := "none", opacity := "0" }) ∧
      (∀ j (h : j < (showSlide (JSNum.int index) s).dots.length),
        "active" ∈ (showSlide (JSNum.int index) s).dots[j].classList ↔ j = index) := by
  refine ⟨by simp, by simp, ?_, ?_⟩
  · intro j h
    rw [showSlide_slide]
    by_cases hj : j = index <;> simp [hj]
  · intro j h
    have := showSlide_dot_active index s j h
    by_cases hj : j = index
    · simpa [Dot.active, hj] using this
    · simpa [Dot.active, hj] using this

theorem showSlide_effect_witness :
    (showSlide (JSNum.int 1)
      { slides := [⟨"block", "1"⟩, ⟨"", ""⟩], dots := [⟨["active"]⟩],
        currentSlide := JSNum.int 0 }).slides.length = 2 :=
  (showSlide_effect
      { slides := [⟨"block", "1"⟩, ⟨"", ""⟩], dots := [⟨["active"]⟩],
        currentSlide := JSNum.int 0 } 1 (by decide)).1


/-- C6: on a slider with no slide and one dot of class `slider-dot` the
operations run without a guard on the number of slides: initialisation adds
the class `active` to the dot, a following `next()` sets the current index to
`NaN` (the remainder of `1` by `0`) and takes the class away, and a click on
the dot sets the index to `0` and adds the class again. The slide set stays
empty throughout, so the dot is mutated although there is no slide. -/
theorem empty_slides_dot_mutated :
    (initTestimonialSlider [] [⟨["slider-dot"]⟩]).slides = [] ∧
      (initTestimonialSlider [] [⟨["slider-dot"]⟩]).dots = [⟨["slider-dot", "active"]⟩] ∧
      (runOps [Op.next] (initTestimonialSlider [] [⟨["slider-dot"]⟩])).currentSlide
        = JSNum.nan ∧
      (runOps [Op.next] (initTestimonialSlider [] [⟨["slider-dot"]⟩])).dots
        = [⟨["slider-dot"]⟩] ∧
      (runOps [Op.next, Op.jump 0] (initTestimonialSlider [] [⟨["slider-dot"]⟩])).currentSlide
        = JSNum.int 0 ∧
      (runOps [Op.next, Op.jump 0] (initTestimonialSlider [] [⟨["slider-dot"]⟩])).dots
        = [⟨["slider-dot", "active"]⟩] := by
  decide

/-- C7, as stated, fails: with one slide and two dots, a click on the second
dot sets the current index to `1`, outside `[0, 0]`, and hides the only slide. -/
theorem jump_beyond_slides :
    (runOps [Op.jump 1] (initTestimonialSlider [⟨"", ""⟩] [⟨[]⟩, ⟨[]⟩])).currentSlide
        = JSNum.int 1 ∧
      (runOps [Op.jump 1] (initTestimonialSlider [⟨"", ""⟩] [⟨[]⟩, ⟨[]⟩])).slides
        = [⟨"none", "0"⟩] := by
  decide

/-- C7, amended: with `N ≥ 1` slides and at most `N` dots, in every state
reached from initialisation by a finite sequence of `next()`, `previous()` and
clicks on existing dots, the current index is an integer `c` with `c < N`, and
the slide shown is the one at `c`. -/
theorem index_in_range (slides : List Slide) (dots : List Dot) (ops : List Op)
    (hN : 1 ≤ slides.length) (hD : dots.length ≤ slides.length) :
    ∃ c : Nat, c < slides.length ∧
      (runOps ops (initTestimonialSlider slides dots)).currentSlide = JSNum.int c ∧
      (runOps ops (initTestimonialSlider slides dots)).slides.length = slides.length ∧
      (∀ j (h : j < (runOps ops (initTestimonialSlider slides dots)).slides.length),
        (runOps ops (initTestimonialSlider slides dots)).slides[j].shown = true ↔ j = c) := by
  obtain ⟨c, hc, hcur, hs, -⟩ := reachable_inRange slides dots ops hN hD
  refine ⟨c, hc, hcur, ?_, hs⟩
  rw [(runOps_lengths ops _).1]
  simp [initTestimonialSlider]

theorem index_in_range_witness :
    ∃ c : Nat, c < 2 ∧
      (runOps [Op.jump 1, Op.next, Op.jump 5, Op.previous]
        (initTestimonialSlider [⟨"", ""⟩, ⟨"", ""⟩] [⟨[]⟩, ⟨[]⟩])).currentSlide = JSNum.int c :=
  let ⟨c, hc, hcur, _⟩ := index_in_range [⟨"", ""⟩, ⟨"", ""⟩] [⟨[]⟩, ⟨[]⟩]
    [Op.jump 1, Op.next, Op.jump 5, Op.previous] (by decide) (by decide)
  ⟨c, hc, hcur⟩

theorem mod_next_prev (c n : Nat) (hc : c < n) : ((c + 1) % n + n - 1) % n = c := by
  by_cases hw : c + 1 < n
  · rw [Nat.mod_eq_of_lt hw, show c + 1 + n - 1 = c + n by omega, Nat.add_mod_right,
      Nat.mod_eq_of_lt hc]
  · have hce : n = c + 1 := by omega
    subst hce
    rw [Nat.mod_self, Nat.zero_add, Nat.add_sub_cancel, Nat.mod_eq_of_lt (by omega)]

theorem mod_prev_next (c n : Nat) (hc : c < n) : ((c + n - 1) % n + 1) % n = c := by
  by_cases hz : c = 0
  · subst hz
    have h1 : (0 + n - 1) % n = n - 1 := by
      rw [Nat.zero_add]; exact Nat.mod_eq_of_lt (by omega)
    rw [h1, Nat.sub_add_cancel (by omega), Nat.mod_self]
  · have h1 : (c + n - 1) % n = c - 1 := by
      rw [show c + n - 1 = c - 1 + n by omega, Nat.add_mod_right]
      exact Nat.mod_eq_of_lt (by omega)
    rw [h1, Nat.sub_add_cancel (by omega), Nat.mod_eq_of_lt hc]

/-- C8: with `N ≥ 1` slides and a current index `c < N`, `next()` and
`previous()` each give an index below `N`, `next()` followed by `previous()`
gives `c` back, and `previous()` followed by `next()` gives `c` back. -/
theorem next_prev_inverse (s : Slider) (c : Nat) (hN : 1 ≤ s.slides.length)
    (hc : c < s.slides.length) (hcur : s.currentSlide = JSNum.int c) :
    (∃ a : Nat, a < s.slides.length ∧ (nextSlide s).currentSlide = JSNum.int a) ∧
      (∃ b : Nat, b < s.slides.length ∧ (prevSlide s).currentSlide = JSNum.int b) ∧
      (prevSlide (nextSlide s)).currentSlide = JSNum.int c ∧
      (nextSlide (prevSlide s)).currentSlide = JSNum.int c := by
  have hn : (nextSlide s).currentSlide
      = JSNum.int (((c + 1) % s.slides.length : Nat) : Int) := by
    rw [nextSlide_eq c s hN hcur]; rfl
  have hp : (prevSlide s).currentSlide
      = JSNum.int (((c + s.slides.length - 1) % s.slides.length : Nat) : Int) := by
    rw [prevSlide_eq c s hN hcur]; rfl
  have hnl : (nextSlide s).slides.length = s.slides.length := (apply_lengths s Op.next).1
  have hpl : (prevSlide s).slides.length = s.slides.length := (apply_lengths s Op.previous).1
  refine ⟨⟨_, Nat.mod_lt _ hN, hn⟩, ⟨_, Nat.mod_lt _ hN, hp⟩, ?_, ?_⟩
  · rw [prevSlide_eq _ (nextSlide s) (by omega) hn, showSlide_currentSlide]
    simp only [hnl, mod_next_prev c _ hc]
  · rw [nextSlide_eq _ (prevSlide s) (by omega) hp, showSlide_currentSlide]
    simp only [hpl, mod_prev_next c _ hc]

theorem next_prev_inverse_witness :
    (prevSlide (nextSlide
      { slides := [⟨"", ""⟩, ⟨"", ""⟩, ⟨"", ""⟩], dots := [], currentSlide := JSNum.int 2 }
      )).currentSlide = JSNum.int 2 :=
  (next_prev_inverse
    { slides := [⟨"", ""⟩, ⟨"", ""⟩, ⟨"", ""⟩], dots := [], currentSlide := JSNum.int 2 }
    2 (by decide) (by decide) rfl).2.2.1


/-! ## Lemmas on strings -/

theorem splitChar_of_not_mem (sep : Char) (f : JSString) (h : sep ∉ f) :
    splitChar sep f = [f] := by
  induction f with
  | nil => rfl
  | cons c t ih =>
    have hc : c ≠ sep := fun e => h (by simp [e])
    have ht : sep ∉ t := fun m => h (List.mem_cons_of_mem _ m)
    simp [splitChar, hc, ih ht]

theorem splitChar_append_sep (sep : Char) (dir f : JSString) (h : sep ∉ f) :
    ∃ seg rest, splitChar sep (dir ++ sep :: f) = seg :: (rest ++ [f]) := by
  induction dir with
  | nil => exact ⟨[], [], by simp [splitChar, splitChar_of_not_mem sep f h]⟩
  | cons c d ih =>
    obtain ⟨seg, rest, hs⟩ := ih
    by_cases hc : c = sep
    · exact ⟨[], seg :: rest, by simp [splitChar, hc, hs]⟩
    · exact ⟨c :: seg, rest, by simp [splitChar, hc, hs]⟩

theorem fileNameOf_path (dir f : JSString) (h : '/' ∉ f) :
    fileNameOf (dir ++ '/' :: f) = if f = [] then "index.html".toList else f := by
  obtain ⟨seg, rest, hs⟩ := splitChar_append_sep '/' dir f h
  simp [fileNameOf, pop, hs, List.getLastD]

theorem replaceFirst_cons (c : Char) (s pat rep : JSString) :
    replaceFirst (c :: s) pat rep =
      if pat.isPrefixOf (c :: s) then rep ++ (c :: s).drop pat.length
      else c :: replaceFirst s pat rep := rfl

theorem includes_cons (c : Char) (s pat : JSString) :
    includes (c :: s) pat = (pat.isPrefixOf (c :: s) || includes s pat) := rfl

/-- A string without the first character of the replacement that starts the
result of a replacement starts the original string. -/
theorem prefix_of_prefix_replaceFirst (pat : JSString) (q : Char) (rep : JSString)
    (hpat : pat ≠ []) (w t : JSString) (hq : q ∉ w)
    (h : w <+: replaceFirst t pat (q :: rep)) : w <+: t := by
  induction w generalizing t with
  | nil => exact List.nil_prefix
  | cons a w ih =>
    have ha : a ≠ q := fun e => hq (by simp [e])
    have hw : q ∉ w := fun m => hq (List.mem_cons_of_mem _ m)
    cases t with
    | nil =>
      have : pat.isPrefixOf ([] : JSString) = false := by
        cases pat with
        | nil => exact absurd rfl hpat
        | cons p ps => rfl
      simp [replaceFirst, this] at h
    | cons c t =>
      rw [replaceFirst_cons] at h
      split at h
      · rw [List.cons_append, List.cons_prefix_cons] at h
        exact absurd h.1 ha
      · rw [List.cons_prefix_cons] at h
        rw [List.cons_prefix_cons]
        exact ⟨h.1, ih t hw h.2⟩

theorem replaceFirst_roundtrip (pat : JSString) (q : Char) (w : JSString) (hpat : pat ≠ [])
    (hq : q ∉ w) (f : JSString) (hin : includes f pat = true)
    (hnot : includes f (q :: w) = false) :
    replaceFirst (replaceFirst f pat (q :: w)) (q :: w) pat = f := by
  induction f with
  | nil =>
    cases pat with
    | nil => exact absurd rfl hpat
    | cons p ps => simp [includes] at hin
  | cons c t ih =>
    rw [includes_cons, Bool.or_eq_false_iff] at hnot
    rw [replaceFirst_cons]
    by_cases hp : pat.isPrefixOf (c :: t) = true
    · rw [if_pos hp]
      have hpre : pat <+: c :: t := List.isPrefixOf_iff_prefix.mp hp
      rw [List.cons_append, replaceFirst_cons]
      have hq2 : (q :: w).isPrefixOf (q :: (w ++ List.drop pat.length (c :: t))) = true := by
        rw [List.isPrefixOf_iff_prefix, ← List.cons_append]
        exact List.prefix_append _ _
      rw [if_pos hq2]
      have hd : List.drop (q :: w).length (q :: (w ++ List.drop pat.length (c :: t)))
          = List.drop pat.length (c :: t) := by
        rw [← List.cons_append, List.drop_left]
      rw [hd]
      obtain ⟨r, hr⟩ := hpre
      rw [← hr, List.drop_left]
    · rw [if_neg hp]
      rw [includes_cons] at hin
      have hin2 : includes t pat = true := by
        cases hi : includes t pat with
        | true => rfl
        | false => simp [hi] at hin; exact absurd (List.isPrefixOf_iff_prefix.mpr hin) hp
      rw [replaceFirst_cons]
      have hnp : ¬ ((q :: w).isPrefixOf (c :: replaceFirst t pat (q :: w)) = true) := by
        intro hpre
        rw [List.isPrefixOf_iff_prefix, List.cons_prefix_cons] at hpre
        have h2 := prefix_of_prefix_replaceFirst pat q w hpat w t hq hpre.2
        have : (q :: w).isPrefixOf (c :: t) = true := by
          rw [List.isPrefixOf_iff_prefix, List.cons_prefix_cons]
          exact ⟨hpre.1, h2⟩
        rw [hnot.1] at this
        exact Bool.noConfusion this
      rw [if_neg hnp, ih hin2 hnot.2]

theorem includes_replaceFirst (pat rep f : JSString) (hin : includes f pat = true) :
    includes (replaceFirst f pat rep) rep = true := by
  induction f with
  | nil =>
    simp only [includes] at hin
    simp [replaceFirst, hin, includes]
    cases rep <;> simp [includes]
  | cons c t ih =>
    rw [replaceFirst_cons]
    by_cases hp : pat.isPrefixOf (c :: t) = true
    · rw [if_pos hp]
      cases rep with
      | nil => cases h : List.drop pat.length (c :: t) <;> simp [includes]
      | cons r rs =>
        rw [List.cons_append, includes_cons, Bool.or_eq_true]
        left
        rw [List.isPrefixOf_iff_prefix, ← List.cons_append]
        exact List.prefix_append _ _
    · rw [if_neg hp, includes_cons, Bool.or_eq_true]
      right
      rw [includes_cons] at hin
      cases hi : includes t pat with
      | true => exact ih hi
      | false => simp [hi] at hin; exact absurd (List.isPrefixOf_iff_prefix.mpr hin) hp

theorem mem_replaceFirst (pat rep f : JSString) (x : Char) (hx : x ∈ replaceFirst f pat rep) :
    x ∈ f ∨ x ∈ rep := by
  induction f with
  | nil =>
    simp only [replaceFirst] at hx
    split at hx
    · exact Or.inr hx
    · exact Or.inl hx
  | cons c t ih =>
    rw [replaceFirst_cons] at hx
    split at hx
    · rcases List.mem_append.mp hx with h | h
      · exact Or.inr h
      · exact Or.inl (List.mem_of_mem_drop h)
    · rcases List.mem_cons.mp hx with h | h
      · exact Or.inl (by simp [h])
      · rcases ih h with h | h
        · exact Or.inl (List.mem_cons_of_mem _ h)
        · exact Or.inr h


theorem includes_nil_false (pat : JSString) (h : includes [] pat = true) : pat = [] := by
  cases pat with
  | nil => rfl
  | cons p ps => simp [includes] at h

theorem switchLanguage_ar (path : JSString) :
    switchLanguage "ar" path =
      if includes (fileNameOf path) "-ar.html".toList then none
      else some (replaceFirst (fileNameOf path) ".html".toList "-ar.html".toList) := by
  simp [switchLanguage]

theorem switchLanguage_other (lang : String) (path : JSString) (h : lang ≠ "ar") :
    switchLanguage lang path =
      if !includes (fileNameOf path) "-ar.html".toList then none
      else some (replaceFirst (fileNameOf path) "-ar.html".toList ".html".toList) := by
  simp [switchLanguage, h]

/-- C9: on a page whose file name `f` contains `.html` and not `-ar.html`,
`switchLanguage('ar')` navigates to `g`, which is `f` with its first `.html`
replaced by `-ar.html`, and on a page whose file name is `g`
`switchLanguage('en')` navigates to `f`; `switchLanguage('ar')` on a file name
that contains `-ar.html`, and `switchLanguage` of a language other than `ar` on
a file name that does not, do not navigate. -/
theorem switchLanguage_round_trip :
    (∀ dir dir2 f : JSString, '/' ∉ f → includes f ".html".toList = true →
      includes f "-ar.html".toList = false →
      switchLanguage "ar" (dir ++ '/' :: f)
          = some (replaceFirst f ".html".toList "-ar.html".toList) ∧
        switchLanguage "en" (dir2 ++ '/' :: replaceFirst f ".html".toList "-ar.html".toList)
          = some f) ∧
    (∀ dir f : JSString, '/' ∉ f → includes f "-ar.html".toList = true →
      switchLanguage "ar" (dir ++ '/' :: f) = none) ∧
    (∀ (lang : String) (dir f : JSString), lang ≠ "ar" → '/' ∉ f →
      includes f "-ar.html".toList = false →
      switchLanguage lang (dir ++ '/' :: f) = none) := by
  refine ⟨?_, ?_, ?_⟩
  · intro dir dir2 f hs hh hn
    have hf : f ≠ [] := by
      intro e
      rw [e] at hh
      exact absurd (includes_nil_false _ hh) (by decide)
    have hg : includes (replaceFirst f ".html".toList "-ar.html".toList) "-ar.html".toList
        = true := includes_replaceFirst _ _ _ hh
    have hgne : replaceFirst f ".html".toList "-ar.html".toList ≠ [] := by
      intro e
      rw [e] at hg
      exact absurd (includes_nil_false _ hg) (by decide)
    have hgs : '/' ∉ replaceFirst f ".html".toList "-ar.html".toList := by
      intro hm
      rcases mem_replaceFirst _ _ _ _ hm with h | h
      · exact hs h
      · exact absurd h (by decide)
    constructor
    · rw [switchLanguage_ar, fileNameOf_path dir f hs, if_neg hf, hn]
      rfl
    · rw [switchLanguage_other "en" _ (by decide), fileNameOf_path dir2 _ hgs, if_neg hgne, hg]
      have hr := replaceFirst_roundtrip ".html".toList '-' "ar.html".toList (by decide)
        (by decide) f hh hn
      simp only [Bool.not_true, Bool.false_eq_true, if_false]
      exact congrArg some hr
  · intro dir f hs hc
    have hf : f ≠ [] := by
      intro e
      rw [e] at hc
      exact absurd (includes_nil_false _ hc) (by decide)
    rw [switchLanguage_ar, fileNameOf_path dir f hs, if_neg hf, hc]
    rfl
  · intro lang dir f hl hs hn
    rw [switchLanguage_other lang _ hl, fileNameOf_path dir f hs]
    by_cases hf : f = []
    · rw [if_pos hf]
      rfl
    · rw [if_neg hf, hn]
      rfl

theorem switchLanguage_round_trip_witness :
    switchLanguage "ar" ("/site".toList ++ '/' :: "about.html".toList)
        = some (replaceFirst "about.html".toList ".html".toList "-ar.html".toList) ∧
      switchLanguage "en" ("/site".toList ++
          '/' :: replaceFirst "about.html".toList ".html".toList "-ar.html".toList)
        = some "about.html".toList :=
  switchLanguage_round_trip.1 "/site".toList "/site".toList "about.html".toList
    (by decide) (by decide) (by decide)


/-! ## Regular expressions: the matcher decides the matched strings -/

namespace Regex

theorem matches_empty_iff (s : JSString) : Matches empty s ↔ False := by
  constructor
  · intro h; cases h
  · intro h; exact h.elim

theorem matches_eps_iff (s : JSString) : Matches eps s ↔ s = [] := by
  constructor
  · intro h; cases h; rfl
  · intro h; subst h; exact Matches.eps

theorem matches_cls_iff (p : Char → Bool) (s : JSString) :
    Matches (cls p) s ↔ ∃ c, s = [c] ∧ p c = true := by
  constructor
  · intro h; cases h with
    | cls _ c hc => exact ⟨c, rfl, hc⟩
  · rintro ⟨c, rfl, hc⟩; exact Matches.cls p c hc

theorem matches_seq_iff (a b : Regex) (s : JSString) :
    Matches (seq a b) s ↔ ∃ u v, s = u ++ v ∧ Matches a u ∧ Matches b v := by
  constructor
  · intro h; cases h with
    | seq _ _ u v hu hv => exact ⟨u, v, rfl, hu, hv⟩
  · rintro ⟨u, v, rfl, hu, hv⟩; exact Matches.seq a b u v hu hv

theorem matches_alt_iff (a b : Regex) (s : JSString) :
    Matches (alt a b) s ↔ Matches a s ∨ Matches b s := by
  constructor
  · intro h; cases h with
    | altLeft _ _ _ h => exact Or.inl h
    | altRight _ _ _ h => exact Or.inr h
  · rintro (h | h)
    · exact Matches.altLeft a b s h
    · exact Matches.altRight a b s h

/-- A non-empty match of `a*` starts with a non-empty match of `a`. -/
theorem matches_star_cons (r : Regex) (w : JSString) (h : Matches r w) :
    ∀ (a : Regex) (c : Char) (s : JSString), r = star a → w = c :: s →
      ∃ u v, s = u ++ v ∧ Matches a (c :: u) ∧ Matches (star a) v := by
  induction h with
  | eps => intro a c s hr; cases hr
  | cls p x hx => intro a c s hr; cases hr
  | seq a1 b1 u v _ _ _ _ => intro a c s hr; cases hr
  | altLeft a1 b1 u _ _ => intro a c s hr; cases hr
  | altRight a1 b1 u _ _ => intro a c s hr; cases hr
  | starNil a1 => intro a c s _ hw; cases hw
  | starCons a1 u v hu hv _ ihv =>
    intro a c s hr hw
    cases hr
    cases u with
    | nil => exact ihv _ c s rfl hw
    | cons x u =>
      rw [List.cons_append] at hw
      cases hw
      exact ⟨u, v, rfl, hu, hv⟩

theorem nullable_iff (r : Regex) : nullable r = true ↔ Matches r [] := by
  induction r with
  | empty => simp [nullable, matches_empty_iff]
  | eps => simp [nullable, matches_eps_iff]
  | cls p => simp [nullable, matches_cls_iff]
  | seq a b iha ihb =>
    rw [matches_seq_iff]
    simp only [nullable, Bool.and_eq_true, iha, ihb]
    constructor
    · rintro ⟨ha, hb⟩; exact ⟨[], [], rfl, ha, hb⟩
    · rintro ⟨u, v, huv, ha, hb⟩
      have h := List.append_eq_nil.mp huv.symm
      rw [h.1] at ha
      rw [h.2] at hb
      exact ⟨ha, hb⟩
  | alt a b iha ihb =>
    rw [matches_alt_iff]
    simp only [nullable, Bool.or_eq_true, iha, ihb]
  | star a _ =>
    simp only [nullable, true_iff]
    exact Matches.starNil a

theorem deriv_iff (c : Char) (r : Regex) (s : JSString) :
    Matches (deriv c r) s ↔ Matches r (c :: s) := by
  induction r generalizing s with
  | empty => simp [deriv, matches_empty_iff]
  | eps => simp [deriv, matches_empty_iff, matches_eps_iff]
  | cls p =>
    rw [matches_cls_iff]
    by_cases hp : p c = true
    · simp only [deriv, hp, if_true, matches_eps_iff]
      constructor
      · rintro rfl; exact ⟨c, rfl, hp⟩
      · rintro ⟨x, hx, _⟩
        simp only [List.cons.injEq] at hx
        exact hx.2
    · simp only [deriv, hp, Bool.false_eq_true, if_false, matches_empty_iff, false_iff]
      rintro ⟨x, hx, hpx⟩
      simp only [List.cons.injEq] at hx
      rw [← hx.1] at hpx
      exact hp hpx
  | seq a b iha ihb =>
    have key : Matches (seq a b) (c :: s) ↔
        (Matches (seq (deriv c a) b) s ∨ (nullable a = true ∧ Matches (deriv c b) s)) := by
      rw [matches_seq_iff, matches_seq_iff]
      constructor
      · rintro ⟨u, v, huv, hu, hv⟩
        cases u with
        | nil =>
          right
          rw [List.nil_append] at huv
          rw [← huv] at hv
          exact ⟨(nullable_iff a).mpr hu, (ihb s).mpr hv⟩
        | cons x u =>
          left
          rw [List.cons_append] at huv
          cases huv
          exact ⟨u, v, rfl, (iha u).mpr hu, hv⟩
      · rintro (⟨u, v, rfl, hu, hv⟩ | ⟨hn, hb⟩)
        · exact ⟨c :: u, v, rfl, (iha u).mp hu, hv⟩
        · exact ⟨[], c :: s, rfl, (nullable_iff a).mp hn, (ihb s).mp hb⟩
    rw [key]
    by_cases hn : nullable a = true
    · simp only [deriv, hn, if_true, matches_alt_iff, true_and]
    · simp only [deriv, hn, Bool.false_eq_true, if_false, false_and, or_false]
  | alt a b iha ihb =>
    simp only [deriv, matches_alt_iff, iha, ihb]
  | star a iha =>
    simp only [deriv]
    rw [matches_seq_iff]
    constructor
    · rintro ⟨u, v, rfl, hu, hv⟩
      exact Matches.starCons a (c :: u) v ((iha u).mp hu) hv
    · intro h
      obtain ⟨u, v, huv, hu, hv⟩ := matches_star_cons _ _ h a c s rfl rfl
      exact ⟨u, v, huv, (iha u).mpr hu, hv⟩

/-- The matcher accepts a string exactly when the expression matches it. -/
theorem test_iff (r : Regex) (s : JSString) : test r s = true ↔ Matches r s := by
  induction s generalizing r with
  | nil => exact nullable_iff r
  | cons c s ih =>
    simp only [test]
    rw [ih, deriv_iff]

theorem matches_star_cls (p : Char → Bool) (r : Regex) (w : JSString) (h : Matches r w) :
    r = star (cls p) → ∀ c ∈ w, p c = true := by
  induction h with
  | eps => intro hr; cases hr
  | cls q x hx => intro hr; cases hr
  | seq a1 b1 u v _ _ _ _ => intro hr; cases hr
  | altLeft a1 b1 u _ _ => intro hr; cases hr
  | altRight a1 b1 u _ _ => intro hr; cases hr
  | starNil a1 => intro _ c hc; simp at hc
  | starCons a1 u v hu _ _ ihv =>
    intro hr c hc
    cases hr
    rcases List.mem_append.mp hc with h | h
    · obtain ⟨x, hx, hpx⟩ := (matches_cls_iff p u).mp hu
      rw [hx] at h
      simp only [List.mem_singleton] at h
      rw [h]
      exact hpx
    · exact ihv rfl c h

theorem matches_star_cls_iff (p : Char → Bool) (s : JSString) :
    Matches (star (cls p)) s ↔ ∀ c ∈ s, p c = true := by
  constructor
  · intro h; exact matches_star_cls p _ _ h rfl
  · intro h
    induction s with
    | nil => exact Matches.starNil _
    | cons x s ih =>
      have hx : p x = true := h x (by simp)
      have hs := ih (fun c hc => h c (List.mem_cons_of_mem _ hc))
      exact Matches.starCons (cls p) [x] s (Matches.cls p x hx) hs

theorem matches_plus_cls_iff (p : Char → Bool) (s : JSString) :
    Matches (plus (cls p)) s ↔ s ≠ [] ∧ ∀ c ∈ s, p c = true := by
  unfold plus
  rw [matches_seq_iff]
  constructor
  · rintro ⟨u, v, rfl, hu, hv⟩
    obtain ⟨x, rfl, hx⟩ := (matches_cls_iff p u).mp hu
    refine ⟨by simp, ?_⟩
    intro c hc
    rcases List.mem_append.mp hc with h | h
    · simp only [List.mem_singleton] at h
      rw [h]; exact hx
    · exact (matches_star_cls_iff p v).mp hv c h
  · rintro ⟨hne, hall⟩
    cases s with
    | nil => exact absurd rfl hne
    | cons x s =>
      refine ⟨[x], s, rfl, Matches.cls p x (hall x (by simp)), ?_⟩
      exact (matches_star_cls_iff p s).mpr (fun c hc => hall c (List.mem_cons_of_mem _ hc))

theorem matches_chr_iff (c : Char) (s : JSString) : Matches (chr c) s ↔ s = [c] := by
  unfold chr
  rw [matches_cls_iff]
  constructor
  · rintro ⟨x, rfl, hx⟩
    simp only [beq_iff_eq] at hx
    rw [hx]
  · rintro rfl
    exact ⟨c, rfl, by simp⟩

end Regex

/-- The pattern of `validateForm` accepts exactly the strings of the shape
`local@domain.tld`. -/
theorem test_emailRegex_iff (s : JSString) :
    Regex.test emailRegex s = true ↔ EmailShape s := by
  rw [Regex.test_iff]
  unfold emailRegex EmailShape
  simp only [Regex.matches_seq_iff, Regex.matches_plus_cls_iff, Regex.matches_chr_iff]
  constructor
  · rintro ⟨l, r1, rfl, ⟨hl, hla⟩, a, r2, rfl, rfl, d, r3, rfl, ⟨hd, hda⟩, b, t, rfl, rfl,
      ht, hta⟩
    exact ⟨l, d, t, hl, hd, ht, hla, hda, hta, by simp⟩
  · rintro ⟨l, d, t, hl, hd, ht, hla, hda, hta, rfl⟩
    exact ⟨l, _, rfl, ⟨hl, hla⟩, _, _, rfl, rfl, d, _, rfl, ⟨hd, hda⟩, _, t, rfl, rfl,
      ht, hta⟩


/-! ## The form validation -/

theorem mem_add_self (cl : ClassList) (t : String) : t ∈ ClassList.add cl t := by
  by_cases h : t ∈ cl <;> simp [ClassList.add, h]

theorem not_mem_remove_self (cl : ClassList) (t : String) : t ∉ ClassList.remove cl t := by
  simp [ClassList.remove]

theorem jsTrim_nil : jsTrim [] = [] := rfl

/-- One required input: `isValid` stays true exactly when it was true and the
input passes both checks, the class `error` is on the input afterwards exactly
when it fails one of them, and nothing else of the input changes. -/
theorem validateInput_spec (b : Bool) (input : Input) :
    ((validateInput b input).1 = true ↔
      (b = true ∧ jsTrim input.value ≠ [] ∧
        (input.type = "email" → input.value ≠ [] → EmailShape input.value))) ∧
    ((validateInput b input).2.hasError = true ↔
      (jsTrim input.value = [] ∨
        (input.type = "email" ∧ input.value ≠ [] ∧ ¬ EmailShape input.value))) ∧
    (validateInput b input).2.required = input.required ∧
    (validateInput b input).2.type = input.type ∧
    (validateInput b input).2.value = input.value := by
  have hre := test_emailRegex_iff input.value
  by_cases ht : jsTrim input.value = [] <;>
  by_cases he : input.type = "email" <;>
  by_cases hv : input.value = [] <;>
  by_cases hr : Regex.test emailRegex input.value = true <;>
  simp [validateInput, ht, he, hv, hr, Input.hasError, mem_add_self,
    not_mem_remove_self, jsTrim_nil, ← hre]


theorem validateFrom_spec (b : Bool) (form : List Input) :
    ((validateFrom b form).1 = true ↔
      (b = true ∧ ∀ input ∈ form, input.required = true → ¬ input.Violates)) ∧
    List.Forall₂ ValidatedAs form (validateFrom b form).2 ∧
    ((validateFrom b form).1 = true ↔
      (b = true ∧ ∀ out ∈ (validateFrom b form).2, out.required = true → out.hasError = false))
    := by
  induction form generalizing b with
  | nil => simp [validateFrom]
  | cons input rest ih =>
    by_cases hr : input.required = true
    · obtain ⟨h1, h2, h3, h4, h5⟩ := validateInput_spec b input
      obtain ⟨i1, i2, i3⟩ := ih (validateInput b input).1
      have hviol : ¬ input.Violates ↔ (jsTrim input.value ≠ [] ∧
          (input.type = "email" → input.value ≠ [] → EmailShape input.value)) := by
        unfold Input.Violates
        constructor
        · intro h
          refine ⟨fun e => h (Or.inl e), fun he hv => ?_⟩
          by_contra hc
          exact h (Or.inr ⟨he, hv, hc⟩)
        · rintro ⟨h, h'⟩ (e | ⟨he, hv, hc⟩)
          · exact h e
          · exact hc (h' he hv)
      have herr : (validateInput b input).2.hasError = false ↔ ¬ input.Violates := by
        rw [← Bool.not_eq_true, h2]
        rfl
      rw [← hviol] at h1
      simp only [validateFrom, hr, if_true]
      generalize validateFrom (validateInput b input).1 rest = t at i1 i2 i3 ⊢
      generalize validateInput b input = r at h1 h2 h3 h4 h5 herr i1 i3 ⊢
      refine ⟨?_, ?_, ?_⟩
      · constructor
        · intro h
          obtain ⟨hr1, hrest⟩ := i1.mp h
          obtain ⟨hb, hg⟩ := h1.mp hr1
          refine ⟨hb, fun x hx => ?_⟩
          rcases List.mem_cons.mp hx with e | hx
          · intro _; rw [e]; exact hg
          · exact hrest x hx
        · rintro ⟨hb, hall⟩
          refine i1.mpr ⟨h1.mpr ⟨hb, hall input (List.mem_cons_self _ _) hr⟩, fun x hx => ?_⟩
          exact hall x (List.mem_cons_of_mem _ hx)
      · refine List.Forall₂.cons ⟨h3, h4, h5, ?_, fun _ => h2⟩ i2
        intro hf
        rw [hr] at hf
        exact Bool.noConfusion hf
      · constructor
        · intro h
          obtain ⟨hr1, hrest⟩ := i3.mp h
          obtain ⟨hb, hg⟩ := h1.mp hr1
          refine ⟨hb, fun x hx => ?_⟩
          rcases List.mem_cons.mp hx with e | hx
          · intro _; rw [e]; exact herr.mpr hg
          · exact hrest x hx
        · rintro ⟨hb, hall⟩
          have hreq : r.2.required = true := by rw [h3]; exact hr
          refine i3.mpr ⟨h1.mpr ⟨hb, herr.mp (hall r.2 (List.mem_cons_self _ _) hreq)⟩,
            fun x hx => ?_⟩
          exact hall x (List.mem_cons_of_mem _ hx)
    · have hr2 : input.required = false := by simpa using hr
      obtain ⟨i1, i2, i3⟩ := ih b
      simp only [validateFrom, hr2, Bool.false_eq_true, if_false]
      refine ⟨?_, ?_, ?_⟩
      · rw [i1]
        simp only [List.mem_cons, forall_eq_or_imp, hr2, Bool.false_eq_true, false_implies,
          true_and]
      · refine List.Forall₂.cons ⟨rfl, rfl, rfl, fun _ => rfl, ?_⟩ i2
        intro ht
        exact absurd ht hr
      · rw [i3]
        simp only [List.mem_cons, forall_eq_or_imp, hr2, Bool.false_eq_true, false_implies,
          true_and]


/-- C10: `validateForm` returns true exactly when every required input has a
value that is non-empty after trimming and every required input of type `email`
with a non-empty value has the shape `local@domain.tld`; after the call every
control is in its place with its attributes, a required input carries the class
`error` exactly when it fails one of the two checks, and the result is true
exactly when no required input carries the class `error`. -/
theorem validateForm_spec (form : List Input) :
    ((validateForm form).1 = true ↔
      ∀ input ∈ form, input.required = true →
        jsTrim input.value ≠ [] ∧
          (input.type = "email" → input.value ≠ [] → EmailShape input.value)) ∧
    (validateForm form).2.length = form.length ∧
    (∀ j (h : j < form.length) (h2 : j < (validateForm form).2.length),
      (validateForm form).2[j].required = form[j].required ∧
      (validateForm form).2[j].type = form[j].type ∧
      (validateForm form).2[j].value = form[j].value ∧
      (form[j].required = true →
        ((validateForm form).2[j].hasError = true ↔
          (jsTrim form[j].value = [] ∨
            (form[j].type = "email" ∧ form[j].value ≠ [] ∧ ¬ EmailShape form[j].value))))) ∧
    ((validateForm form).1 = true ↔
      ∀ out ∈ (validateForm form).2, out.required = true → out.hasError = false) := by
  obtain ⟨h1, h2, h3⟩ := validateFrom_spec true form
  refine ⟨?_, h2.length_eq.symm, ?_, ?_⟩
  · rw [validateForm, h1]
    simp only [true_and]
    constructor
    · intro h input hin hreq
      have hv := h input hin hreq
      refine ⟨fun e => hv (Or.inl e), fun he hne => ?_⟩
      by_contra hc
      exact hv (Or.inr ⟨he, hne, hc⟩)
    · intro h input hin hreq hv
      obtain ⟨ht, hem⟩ := h input hin hreq
      rcases hv with e | ⟨he, hne, hc⟩
      · exact ht e
      · exact hc (hem he hne)
  · intro j h hj
    have hg := h2.get h hj
    simp only [List.get_eq_getElem] at hg
    exact ⟨hg.1, hg.2.1, hg.2.2.1, hg.2.2.2.2⟩
  · rw [validateForm, h3]
    simp only [true_and]

theorem validateForm_spec_witness :
    (validateForm
        [⟨true, "text", " ".toList, []⟩, ⟨true, "email", "x@y".toList, []⟩,
         ⟨false, "email", "".toList, ["error"]⟩]).2.length = 3 :=
  (validateForm_spec
    [⟨true, "text", " ".toList, []⟩, ⟨true, "email", "x@y".toList, []⟩,
     ⟨false, "email", "".toList, ["error"]⟩]).2.1

end BrightTech
